import Mathlib

/-!
Verification of the deadlock-avoidance / deadlock-detection tool
(`bankeralgodeadlock.py` and `deadlockdetection.py`).

The Python code is embedded shallowly: machine state (the resource ledger of
`BankersAlgorithm`, the lock tables of `DeadlockDetector`) becomes explicit
structures, each mutating method becomes a pure function from state to state,
and the recursive/looping algorithms (`is_safe`, `check_deadlock`) are written
with structural recursion (a fuel argument mirrors the bounded `while` loop /
the bounded recursion depth) so that every definition evaluates on concrete
inputs.

Python integers are `Int` (they are unbounded and may go negative, e.g. when
`release_resources` subtracts without validation).  Python list indexing
`l[i]` is `List.getD` with a default; all accesses made by the source on the
states considered are in range, which the well-formedness predicates record.
-/

/-! ## List helpers -/

/-- Python `l[i]` on an int list (in range on all states considered). -/
def idx (l : List Int) (j : Nat) : Int := l.getD j 0

/-- Python `m[i]` on a list-of-rows (in range on all states considered). -/
def row (m : List (List Int)) (i : Nat) : List Int := m.getD i []

/-- `[w[j] + r[j] for j in range(m)]`: the in-place loop
`for j in range(m): w[j] += r[j]` of the source. -/
def addRow (m : Nat) (w r : List Int) : List Int :=
  (List.range m).map (fun j => idx w j + idx r j)

/-- `[w[j] - r[j] for j in range(m)]`: the in-place loop
`for j in range(m): w[j] -= r[j]` of the source. -/
def subRow (m : Nat) (w r : List Int) : List Int :=
  (List.range m).map (fun j => idx w j - idx r j)

/-! ## `BankersAlgorithm`: the resource ledger

Fields `available`, `allocation`, `need` of the Python class (plus the two
size constants `num_resources` / `num_threads`).  `max` is only read at
construction time, through `calculate_need`. -/

structure Ledger where
  num_resources : Nat
  num_threads : Nat
  available : List Int
  allocation : List (List Int)
  need : List (List Int)
deriving Repr, DecidableEq

/-- Lengths implicit in the Python lists. -/
def Ledger.WF (L : Ledger) : Prop :=
  L.available.length = L.num_resources ∧
  L.allocation.length = L.num_threads ∧
  L.need.length = L.num_threads ∧
  (∀ r ∈ L.allocation, r.length = L.num_resources) ∧
  (∀ r ∈ L.need, r.length = L.num_resources)

instance (L : Ledger) : Decidable L.WF := by
  unfold Ledger.WF
  infer_instance

/-- `calculate_need`: `need[i][j] = max[i][j] - allocation[i][j]`. -/
def calculate_need (num_threads num_resources : Nat)
    (mx allocation : List (List Int)) : List (List Int) :=
  (List.range num_threads).map (fun i =>
    (List.range num_resources).map (fun j => idx (row mx i) j - idx (row allocation i) j))

/-- `all(self.need[i][j] <= work[j] for j in range(self.num_resources))`. -/
def rowLe (m : Nat) (needRow work : List Int) : Bool :=
  (List.range m).all (fun j => idx needRow j ≤ idx work j)

/-- The `for i in range(self.num_threads): ...` scan of `is_safe`: first index in
`ks` that is unfinished and whose need row fits under `work` (the loop `break`s
at the first hit). -/
def firstCand (L : Ledger) (work : List Int) (finish : List Bool) : List Nat → Option Nat
  | [] => none
  | i :: ks =>
    if !(finish.getD i false) && rowLe L.num_resources (row L.need i) work then some i
    else firstCand L work finish ks

/-- The `while len(safe_sequence) < self.num_threads` loop of `is_safe`.  Each
iteration either appends one new index to `safe_sequence` or returns, so the
loop runs at most `num_threads` times; `fuel` (initially `num_threads`) makes
that bound structural.  When fuel runs out, `len(safe_sequence) >= num_threads`
already holds, which is the loop's exit condition, so returning
`(true, seq)` agrees with the source. -/
def isSafeLoop (L : Ledger) : Nat → List Int → List Bool → List Nat → Bool × List Nat
  | 0, _, _, seq => (true, seq)
  | fuel + 1, work, finish, seq =>
    if seq.length < L.num_threads then
      match firstCand L work finish (List.range L.num_threads) with
      | some i =>
          isSafeLoop L fuel (addRow L.num_resources work (row L.allocation i))
            (finish.set i true) (seq ++ [i])
      | none => (false, seq)
    else (true, seq)

/-- `is_safe`: `work = available[:]`, all threads unfinished, empty sequence. -/
def is_safe (L : Ledger) : Bool × List Nat :=
  isSafeLoop L L.num_threads L.available (List.replicate L.num_threads false) []

/-- The tentative allocation inside `request_resources`:
`available[i] -= request[i]; allocation[t][i] += request[i]; need[t][i] -= request[i]`. -/
def tentativeGrant (L : Ledger) (t : Nat) (req : List Int) : Ledger :=
  { L with
    available := subRow L.num_resources L.available req
    allocation := L.allocation.set t (addRow L.num_resources (row L.allocation t) req)
    need := L.need.set t (subRow L.num_resources (row L.need t) req) }

/-- `request_resources(thread_id, request)`.

The rollback branch reflects the Python exactly: `original_available` is a
fresh copy of a flat int list and assigning it back restores `available`, but
`original_allocation = self.allocation[:]` and `original_need = self.need[:]`
are shallow copies whose row objects are the very rows mutated in place by the
tentative allocation, so assigning them back leaves `allocation` and `need` in
their mutated state. -/
def request_resources (L : Ledger) (t : Nat) (req : List Int) : Bool × Ledger :=
  if (List.range L.num_resources).any (fun i => decide (idx (row L.need t) i < idx req i)) then
    (false, L)
  else if (List.range L.num_resources).any (fun i => decide (idx L.available i < idx req i)) then
    (false, L)
  else
    let L1 := tentativeGrant L t req
    if (is_safe L1).1 then (true, L1)
    else (false, { L1 with available := L.available })

/-- `release_resources(thread_id, release)`: unconditional
`available[i] += release[i]; allocation[t][i] -= release[i]; need[t][i] += release[i]`. -/
def release_resources (L : Ledger) (t : Nat) (rel : List Int) : Ledger :=
  { L with
    available := addRow L.num_resources L.available rel
    allocation := L.allocation.set t (subRow L.num_resources (row L.allocation t) rel)
    need := L.need.set t (addRow L.num_resources (row L.need t) rel) }

/-- `available[c] + Σ_actor allocation[actor][c]`, the conserved per-class total. -/
def classSum (L : Ledger) (c : Nat) : Int :=
  idx L.available c + (L.allocation.map (fun r => idx r c)).sum

/-! ## `DeadlockDetector`

State: `resource_status[r]` is the holder of resource `r` (or `none`),
`thread_locks[t]` is the single lock slot recorded for thread `t` (or `none`),
`waiting[t]` is thread `t`'s set of awaited resources (a Python `set`,
modelled as a duplicate-free list; `set.add` appends when absent). -/

structure Detector where
  num_resources : Nat
  num_threads : Nat
  resource_status : List (Option Nat)
  thread_locks : List (Option Nat)
  waiting : List (List Nat)
deriving Repr, DecidableEq

def Detector.WF (D : Detector) : Prop :=
  D.resource_status.length = D.num_resources ∧
  D.thread_locks.length = D.num_threads ∧
  D.waiting.length = D.num_threads

instance (D : Detector) : Decidable D.WF := by
  unfold Detector.WF
  infer_instance

/-- `waiting_threads[t].add(r)` (set semantics). -/
def addWait (w : List Nat) (r : Nat) : List Nat := if r ∈ w then w else w ++ [r]

/-- Fresh detector: all resources free, no locks recorded, empty waiting sets. -/
def detectorInit (num_resources num_threads : Nat) : Detector :=
  { num_resources := num_resources, num_threads := num_threads
    resource_status := List.replicate num_resources none
    thread_locks := List.replicate num_threads none
    waiting := List.replicate num_threads [] }

/-- `request_resource(thread_id, resource_id)`: acquire when free (recording the
lock in the thread's single slot, overwriting any previous record), otherwise
add the resource to the thread's waiting set. -/
def request_resource (D : Detector) (t r : Nat) : Detector :=
  match D.resource_status.getD r none with
  | none =>
      { D with resource_status := D.resource_status.set r (some t)
               thread_locks := D.thread_locks.set t (some r) }
  | some _ => { D with waiting := D.waiting.set t (addWait (D.waiting.getD t []) r) }

/-- `release_resource(thread_id, resource_id)`: only acts when the thread's
recorded lock slot equals `resource_id`; otherwise a silent no-op.
The waiting sets are never touched. -/
def release_resource (D : Detector) (t r : Nat) : Detector :=
  if D.thread_locks.getD t none = some r then
    { D with resource_status := D.resource_status.set r none
             thread_locks := D.thread_locks.set t none }
  else D

/-- The inner `for other_thread, other_resource in enumerate(self.thread_locks)`
filter of `is_deadlock`: threads (in increasing order) whose recorded lock slot
is `r`, other than `t`. -/
def holders (D : Detector) (t r : Nat) : List Nat :=
  (List.range D.thread_locks.length).filter
    (fun b => !(b == t) && (D.thread_locks.getD b none == some r))

/-- All DFS successors of `t`, in the order the two nested loops of
`is_deadlock` visit them: for each awaited resource, every other thread whose
lock slot records that resource. -/
def neighbors (D : Detector) (t : Nat) : List Nat :=
  (D.waiting.getD t []).flatMap (fun r => holders D t r)

/-- One step of the successor loop of `is_deadlock`, parametrized by the
recursive call `rec`: for candidate `u`,
`if not visited[u] and is_deadlock(u): return True elif rec_stack[u]:
return True` (the `elif` reads `rec_stack` after the recursive call when one
was made).  The boolean in the accumulator records that the Python loop has
already `return`ed `True`; once set, the remaining candidates are skipped
unchanged. -/
def scanStep (rec : Nat → (Nat → Bool) → (Nat → Bool) → Bool × (Nat → Bool) × (Nat → Bool))
    (acc : Bool × (Nat → Bool) × (Nat → Bool)) (u : Nat) : Bool × (Nat → Bool) × (Nat → Bool) :=
  match acc with
  | (true, vis, stk) => (true, vis, stk)
  | (false, vis, stk) =>
    if vis u = false then
      match rec u vis stk with
      | (true, vis2, stk2) => (true, vis2, stk2)
      | (false, vis2, stk2) =>
        if stk2 u then (true, vis2, stk2) else (false, vis2, stk2)
    else if stk u then (true, vis, stk) else (false, vis, stk)

/-- `is_deadlock(thread_id)` of `check_deadlock`: mark `t` visited and
on-stack, run the successor loop, and on falling through unmark the on-stack
flag and report no cycle.  The `visited` / `rec_stack` arrays are passed
explicitly; `fuel` bounds the recursion depth (each nested call targets a
newly visited thread, so `num_threads` fuel is enough; the zero-fuel branch
is unreachable under that bound). -/
def isDeadlockAux (D : Detector) : Nat → Nat → (Nat → Bool) → (Nat → Bool) →
    Bool × (Nat → Bool) × (Nat → Bool)
  | 0, _, vis, stk => (false, vis, stk)
  | fuel + 1, t, vis, stk =>
    match (neighbors D t).foldl
        (fun acc u =>
          match acc with
          | (true, vis', stk') => (true, vis', stk')
          | (false, vis', stk') =>
            if vis' u = false then
              match isDeadlockAux D fuel u vis' stk' with
              | (true, vis2, stk2) => (true, vis2, stk2)
              | (false, vis2, stk2) =>
                if stk2 u then (true, vis2, stk2) else (false, vis2, stk2)
            else if stk' u then (true, vis', stk') else (false, vis', stk'))
        (false, fun v => if v = t then true else vis v, fun v => if v = t then true else stk v) with
    | (true, vis2, stk2) => (true, vis2, stk2)
    | (false, vis2, stk2) => (false, vis2, fun v => if v = t then false else stk2 v)

/-- The outer `for thread_id in range(self.num_threads)` loop of
`check_deadlock`, threading `visited` / `rec_stack` through the calls. -/
def checkLoop (D : Detector) :
    List Nat → (Nat → Bool) → (Nat → Bool) → Bool × (Nat → Bool) × (Nat → Bool)
  | [], vis, stk => (false, vis, stk)
  | t :: ts, vis, stk =>
    if vis t = false then
      match isDeadlockAux D D.num_threads t vis stk with
      | (true, vis2, stk2) => (true, vis2, stk2)
      | (false, vis2, stk2) => checkLoop D ts vis2 stk2
    else checkLoop D ts vis stk

/-- `check_deadlock()` together with the final `visited` / `rec_stack` state
(at a positive detection, the `rec_stack` flags mark exactly the threads on
the recursion stack, i.e. the reported cycle members). -/
def checkDeadlockFull (D : Detector) : Bool × (Nat → Bool) × (Nat → Bool) :=
  checkLoop D (List.range D.num_threads) (fun _ => false) (fun _ => false)

/-- `check_deadlock()`'s boolean result. -/
def check_deadlock (D : Detector) : Bool := (checkDeadlockFull D).1

/-- Wait-for edge as `check_deadlock` derives it: `A → B` iff some resource in
`A`'s waiting set is recorded in `B`'s `thread_locks` slot, `A ≠ B`. -/
def EdgeLocks (D : Detector) (a b : Nat) : Prop :=
  a ≠ b ∧ ∃ r ∈ D.waiting.getD a [], D.thread_locks.getD b none = some r

/-- Wait-for edge as the specification words it: `A → B` iff some resource in
`A`'s waiting set is held by `B` according to the held map `resource_status`,
`A ≠ B`. -/
def EdgeHeld (D : Detector) (a b : Nat) : Prop :=
  a ≠ b ∧ ∃ r ∈ D.waiting.getD a [], D.resource_status.getD r none = some b

/-! ## Specification-side description of the `is_safe` scan

`NeedLe`/`ScanRun` word the claimed process: repeatedly pick the
lowest-indexed unfinished actor whose need row fits under `work`, absorb its
allocation into `work`, append it, rescan; succeed when every actor is
finished, fail when a full scan of the unfinished actors finds none whose
need is satisfiable. -/

/-- Actor `i`'s need row is componentwise at most `work`. -/
def NeedLe (L : Ledger) (i : Nat) (work : List Int) : Prop :=
  ∀ j < L.num_resources, idx (row L.need i) j ≤ idx work j

inductive ScanRun (L : Ledger) : List Int → List Bool → List Nat → Bool × List Nat → Prop
  | allDone : ∀ work finish seq,
      (∀ i < L.num_threads, finish.getD i false = true) →
      ScanRun L work finish seq (true, seq)
  | stuck : ∀ work finish seq,
      (∃ i, i < L.num_threads ∧ finish.getD i false = false) →
      (∀ i < L.num_threads, finish.getD i false = false → ¬ NeedLe L i work) →
      ScanRun L work finish seq (false, seq)
  | step : ∀ work finish seq out i, i < L.num_threads →
      finish.getD i false = false → NeedLe L i work →
      (∀ k < i, finish.getD k false = true ∨ ¬ NeedLe L k work) →
      ScanRun L (addRow L.num_resources work (row L.allocation i)) (finish.set i true)
        (seq ++ [i]) out →
      ScanRun L work finish seq out

/-! ## Concrete states used by the scenarios -/

/-- Scenario A's snapshot: 3 classes, 3 actors, `available=[3,3,2]`,
`max_need=[[7,5,3],[3,2,2],[9,0,2]]`, `allocation=[[0,1,0],[2,0,0],[3,0,2]]`,
`need` computed by `calculate_need`. -/
def ledgerA : Ledger :=
  { num_resources := 3, num_threads := 3, available := [3, 3, 2]
    allocation := [[0, 1, 0], [2, 0, 0], [3, 0, 2]]
    need := calculate_need 3 3 [[7, 5, 3], [3, 2, 2], [9, 0, 2]]
      [[0, 1, 0], [2, 0, 0], [3, 0, 2]] }

/-- One class, two actors; available `[1]`, allocations `[[0],[1]]`, needs
`[[2],[1]]`.  Granting `[1]` to actor 0 passes the need and availability
checks but leaves the state unsafe, triggering the rollback branch. -/
def ledgerRollback : Ledger :=
  { num_resources := 1, num_threads := 2, available := [1]
    allocation := [[0], [1]], need := [[2], [1]] }

/-- One class, one actor, nothing available, the actor holds the single unit
and declares one more: an unsafe state (the actor's need can never be met). -/
def ledgerUnsafeZero : Ledger :=
  { num_resources := 1, num_threads := 1, available := [0]
    allocation := [[1]], need := [[1]] }

/-- One class, one actor, one unit available, none held: a safe state. -/
def ledgerTiny : Ledger :=
  { num_resources := 1, num_threads := 1, available := [1]
    allocation := [[0]], need := [[1]] }

/-- One class, one actor holding nothing: any positive release overdraws. -/
def ledgerOverRelease : Ledger :=
  { num_resources := 1, num_threads := 1, available := [0]
    allocation := [[0]], need := [[1]] }

/-- Scenario B, built by the detector's own operations: thread 0 acquires
resource 0 and blocks on resource 1; thread 1 acquires resource 1 and blocks
on resource 0; thread 2 idle. -/
def detectorB : Detector :=
  request_resource (request_resource (request_resource (request_resource
    (detectorInit 2 3) 0 0) 1 1) 0 1) 1 0

/-- A reachable state where the held map and the lock slots disagree:
thread 1 acquires resource 0 then resource 1 (its lock slot now records only
resource 1, while `resource_status` still shows it holding resource 0);
thread 0 acquires resource 2; thread 0 blocks on resource 0; thread 1 blocks
on resource 2. -/
def detectorDiverge : Detector :=
  request_resource (request_resource (request_resource (request_resource (request_resource
    (detectorInit 3 2) 1 0) 1 1) 0 2) 0 0) 1 2

/-- Thread 0 holds resource 0 while thread 1 blocks on it (reached by two
`request_resource` calls from a fresh detector). -/
def detectorRelease : Detector :=
  request_resource (request_resource (detectorInit 1 2) 0 0) 1 0

/-! ## DFS bookkeeping for `check_deadlock`

`NEdge D a b` is membership of `b` in the successor list `check_deadlock`
scans from `a`.  `unvis` measures the unvisited threads (for fuel
accounting); `StackSub`, `BlackClosed` and `BlackAcyclic` are the invariants
of the three-colour traversal: the recursion stack is visited, finished
("black") threads only point at finished threads, and no finished thread
lies on a cycle.  `AuxOK`/`ScanOK` package the induction statement for the
two mutually recursive functions. -/

def NEdge (D : Detector) (a b : Nat) : Prop := b ∈ neighbors D a

def unvis (n : Nat) (vis : Nat → Bool) : Finset Nat :=
  (Finset.range n).filter (fun v => vis v = false)

def StackSub (vis stk : Nat → Bool) : Prop := ∀ v, stk v = true → vis v = true

def BlackClosed (D : Detector) (vis stk : Nat → Bool) : Prop :=
  ∀ v, vis v = true → stk v = false → ∀ u, NEdge D v u → vis u = true ∧ stk u = false

def BlackAcyclic (D : Detector) (vis stk : Nat → Bool) : Prop :=
  ∀ v, vis v = true → stk v = false → ¬ Relation.TransGen (NEdge D) v v

def AuxOK (D : Detector) (fuel : Nat) : Prop :=
  ∀ t vis stk b vis2 stk2,
    isDeadlockAux D fuel t vis stk = (b, vis2, stk2) →
    vis t = false → t < D.num_threads →
    (unvis D.num_threads vis).card ≤ fuel →
    StackSub vis stk → BlackClosed D vis stk → BlackAcyclic D vis stk →
    (∀ g, stk g = true → Relation.TransGen (NEdge D) g t) →
    (∀ v, vis v = true → vis2 v = true) ∧ vis2 t = true ∧
    (b = false → (∀ v, stk2 v = stk v) ∧ StackSub vis2 stk2 ∧ BlackClosed D vis2 stk2 ∧
      BlackAcyclic D vis2 stk2) ∧
    (b = true → ∃ v, Relation.TransGen (NEdge D) v v)

def ScanOK (D : Detector) (fuel : Nat) : Prop :=
  ∀ (t : Nat) (l : List Nat) vis stk b vis2 stk2,
    List.foldl (scanStep (isDeadlockAux D fuel)) (false, vis, stk) l = (b, vis2, stk2) →
    (∀ u ∈ l, NEdge D t u) →
    stk t = true →
    (unvis D.num_threads vis).card ≤ fuel →
    StackSub vis stk → BlackClosed D vis stk → BlackAcyclic D vis stk →
    (∀ g, stk g = true → g = t ∨ Relation.TransGen (NEdge D) g t) →
    (∀ v, vis v = true → vis2 v = true) ∧
    (b = false → (∀ v, stk2 v = stk v) ∧ StackSub vis2 stk2 ∧ BlackClosed D vis2 stk2 ∧
      BlackAcyclic D vis2 stk2 ∧ (∀ u ∈ l, vis2 u = true ∧ stk2 u = false)) ∧
    (b = true → ∃ v, Relation.TransGen (NEdge D) v v)

/-! ## List access lemmas -/

theorem getD_set_self {α : Type} (l : List α) (i : Nat) (a d : α) (h : i < l.length) :
    (l.set i a).getD i d = a := by
  induction l generalizing i with
  | nil => simp at h
  | cons x xs ih =>
    cases i with
    | zero => rfl
    | succ j => simpa using ih j (by simpa using h)

theorem getD_set_ne {α : Type} (l : List α) (i j : Nat) (a d : α) (h : j ≠ i) :
    (l.set i a).getD j d = l.getD j d := by
  induction l generalizing i j with
  | nil => simp
  | cons x xs ih =>
    cases i with
    | zero =>
      cases j with
      | zero => exact absurd rfl h
      | succ k => simp [List.getD]
    | succ i' =>
      cases j with
      | zero => simp [List.getD]
      | succ k => simpa [List.getD] using ih i' k (fun hk => h (by simp [hk]))

theorem set_getD_self {α : Type} (l : List α) (i : Nat) (d : α) :
    l.set i (l.getD i d) = l := by
  induction l generalizing i with
  | nil => simp
  | cons x xs ih =>
    cases i with
    | zero => simp [List.getD]
    | succ j => simpa [List.getD] using ih j

theorem getD_map_range {α : Type} (m j : Nat) (f : Nat → α) (d : α) (h : j < m) :
    ((List.range m).map f).getD j d = f j := by
  rw [List.getD_eq_getElem?_getD]
  rw [List.getElem?_map]
  simp [List.getElem?_range h]

theorem map_range_idx (m : Nat) (l : List Int) (h : l.length = m) :
    (List.range m).map (fun j => idx l j) = l := by
  apply List.ext_getElem
  · simp [h]
  · intro i h1 h2
    simp only [List.getElem_map, List.getElem_range]
    simp [idx, List.getD_eq_getElem?_getD, List.getElem?_eq_getElem h2]

theorem idx_replicate_zero (m j : Nat) : idx (List.replicate m 0) j = 0 := by
  unfold idx
  rcases Nat.lt_or_ge j m with h | h
  · rw [List.getD_eq_getElem?_getD, List.getElem?_replicate]
    simp [h]
  · rw [List.getD_eq_getElem?_getD, List.getElem?_eq_none (by simpa using h)]
    rfl

/-! ## Vector lemmas -/

theorem idx_addRow (m : Nat) (w r : List Int) (c : Nat) (h : c < m) :
    idx (addRow m w r) c = idx w c + idx r c :=
  getD_map_range m c _ 0 h

theorem idx_subRow (m : Nat) (w r : List Int) (c : Nat) (h : c < m) :
    idx (subRow m w r) c = idx w c - idx r c :=
  getD_map_range m c _ 0 h

theorem addRow_zero (m : Nat) (w : List Int) (h : w.length = m) (k : Nat) :
    addRow m w (List.replicate k 0) = w := by
  unfold addRow
  simp only [idx_replicate_zero, add_zero]
  exact map_range_idx m w h

theorem subRow_zero (m : Nat) (w : List Int) (h : w.length = m) (k : Nat) :
    subRow m w (List.replicate k 0) = w := by
  unfold subRow
  simp only [idx_replicate_zero, sub_zero]
  exact map_range_idx m w h

theorem subRow_addRow (m : Nat) (w r : List Int) (h : w.length = m) :
    subRow m (addRow m w r) r = w := by
  unfold subRow
  have hc : ∀ j ∈ List.range m, idx (addRow m w r) j - idx r j = idx w j := by
    intro j hj
    rw [idx_addRow m w r j (List.mem_range.mp hj)]
    ring
  rw [List.map_congr_left hc]
  exact map_range_idx m w h

theorem addRow_subRow (m : Nat) (w r : List Int) (h : w.length = m) :
    addRow m (subRow m w r) r = w := by
  unfold addRow
  have hc : ∀ j ∈ List.range m, idx (subRow m w r) j + idx r j = idx w j := by
    intro j hj
    rw [idx_subRow m w r j (List.mem_range.mp hj)]
    ring
  rw [List.map_congr_left hc]
  exact map_range_idx m w h

theorem row_set_self (mtx : List (List Int)) (t : Nat) (x : List Int) (h : t < mtx.length) :
    row (mtx.set t x) t = x :=
  getD_set_self mtx t x [] h

theorem row_set_ne (mtx : List (List Int)) (t u : Nat) (x : List Int) (h : u ≠ t) :
    row (mtx.set t x) u = row mtx u :=
  getD_set_ne mtx t u x [] h

theorem getD_mem_of_lt {α : Type} (l : List α) (i : Nat) (d : α) (h : i < l.length) :
    l.getD i d ∈ l := by
  rw [List.getD_eq_getElem?_getD, List.getElem?_eq_getElem h]
  exact List.getElem_mem h

/-! ## Claims about `BankersAlgorithm`: concrete evaluations -/

/-- C1.  `request_resources` on `ledgerRollback` for actor 0, amounts `[1]`:
the request passes the need and availability checks, the tentative grant is
unsafe, and the "rollback" restores `available` but leaves `allocation` and
`need` mutated (the shallow-copy aliasing slip), so the failed call does not
leave the ledger unchanged. -/
theorem rollback_bug_eval :
    (request_resources ledgerRollback 0 [1]).1 = false ∧
    (request_resources ledgerRollback 0 [1]).2.available = ledgerRollback.available ∧
    (request_resources ledgerRollback 0 [1]).2.allocation ≠ ledgerRollback.allocation ∧
    (request_resources ledgerRollback 0 [1]).2.need ≠ ledgerRollback.need ∧
    (request_resources ledgerRollback 0 [1]).2.allocation = [[1], [1]] ∧
    (request_resources ledgerRollback 0 [1]).2.need = [[1], [1]] := by decide

/-- C3.  The per-class conservation `available[c] + Σ allocation[actor][c]`
is broken by the same failed request: the total for the single class is 2
before the call and 3 after it (the tentative grant's allocation increment
survives the rollback while `available` is restored). -/
theorem class_sum_broken_by_rollback :
    classSum ledgerRollback 0 = 2 ∧
    classSum (request_resources ledgerRollback 0 [1]).2 0 = 3 := by decide

/-- C6, counterexample.  On scenario A's snapshot (whose derived need matrix
is `[[7,4,3],[1,2,2],[6,0,0]]` as the claim states) `is_safe` reports
*unsafe*, so the claim that it returns `true` with a full ordering is false. -/
theorem scenarioA_not_safe :
    ledgerA.need = [[7, 4, 3], [1, 2, 2], [6, 0, 0]] ∧
    (is_safe ledgerA).1 = false := by decide

/-- C6, amended.  `is_safe` on scenario A returns `(false, [1])`: actor 1 is
the only actor that can finish; with `work = [5,3,2]` afterwards, actor 0
(need 7 of class 0) and actor 2 (need 6 of class 0) are both unsatisfiable. -/
theorem scenarioA_unsafe_partial_seq :
    is_safe ledgerA = (false, [1]) := by decide

/-- C5, counterexample.  Releasing `[1]` when actor 0's allocation is `[0]`
is an over-release; the code performs no check: the call changes the ledger
(driving the allocation negative) instead of failing and leaving it
unchanged. -/
theorem release_overdraw_changes_ledger :
    idx (row ledgerOverRelease.allocation 0) 0 < 1 ∧
    release_resources ledgerOverRelease 0 [1] ≠ ledgerOverRelease ∧
    idx (row (release_resources ledgerOverRelease 0 [1]).allocation 0) 0 = -1 := by decide

/-! ## Claims about `DeadlockDetector`: release and slot overwrite -/

/-- C8, counterexample.  In `detectorRelease` (thread 0 holds resource 0,
thread 1 waits for it), `release_resource(0, 0)` succeeds — it clears the
held map entry and the lock slot — yet resource 0 is still in thread 1's
waiting set immediately afterwards, contrary to the claim. -/
theorem release_leaves_waiting_entry :
    (release_resource detectorRelease 0 0).resource_status.getD 0 none = none ∧
    (release_resource detectorRelease 0 0).thread_locks.getD 0 none = none ∧
    0 ∈ (release_resource detectorRelease 0 0).waiting.getD 1 [] := by decide

/-- C8, amended.  `release_resource(actor, r)` never touches the waiting
sets; it is a silent no-op (no `NotHolder` failure) unless the actor's lock
slot records exactly `r`, in which case it clears `resource_status[r]` and
`thread_locks[actor]`. -/
theorem release_resource_characterization (D : Detector) (t r : Nat) :
    (release_resource D t r).waiting = D.waiting ∧
    (D.thread_locks.getD t none ≠ some r → release_resource D t r = D) ∧
    (D.thread_locks.getD t none = some r →
      (release_resource D t r).resource_status = D.resource_status.set r none ∧
      (release_resource D t r).thread_locks = D.thread_locks.set t none) := by
  by_cases h : D.thread_locks.getD t none = some r
  · unfold release_resource
    rw [if_pos h]
    exact ⟨rfl, fun hc => absurd h hc, fun _ => ⟨rfl, rfl⟩⟩
  · unfold release_resource
    rw [if_neg h]
    exact ⟨rfl, fun _ => rfl, fun hc => absurd hc h⟩

/-- C8, witness: the characterization applied to `detectorRelease`. -/
theorem release_resource_characterization_witness :
    (release_resource detectorRelease 0 0).resource_status =
      detectorRelease.resource_status.set 0 none ∧
    (release_resource detectorRelease 0 0).thread_locks =
      detectorRelease.thread_locks.set 0 none :=
  (release_resource_characterization detectorRelease 0 0).2.2 (by decide)

/-- C10.  When a thread acquires free `r1` and then free `r2`, its single
lock slot is overwritten to `r2`; releasing `r1` afterwards is a silent
no-op, and `resource_status[r1]` remains assigned to the thread. -/
theorem lock_slot_overwrite_loses_resource (D : Detector) (t r1 r2 : Nat)
    (ht : t < D.thread_locks.length)
    (hr1 : r1 < D.resource_status.length)
    (hne : r1 ≠ r2)
    (hf1 : D.resource_status.getD r1 none = none)
    (hf2 : D.resource_status.getD r2 none = none) :
    (request_resource (request_resource D t r1) t r2).thread_locks.getD t none = some r2 ∧
    (request_resource (request_resource D t r1) t r2).resource_status.getD r1 none = some t ∧
    release_resource (request_resource (request_resource D t r1) t r2) t r1 =
      request_resource (request_resource D t r1) t r2 ∧
    (release_resource (request_resource (request_resource D t r1) t r2) t r1).resource_status.getD
      r1 none = some t := by
  have h1 : request_resource D t r1 =
      ⟨D.num_resources, D.num_threads, D.resource_status.set r1 (some t),
        D.thread_locks.set t (some r1), D.waiting⟩ := by
    unfold request_resource
    rw [hf1]
  have hst2 : (request_resource D t r1).resource_status.getD r2 none = none := by
    rw [h1]
    simp only
    rw [getD_set_ne _ _ _ _ _ (Ne.symm hne)]
    exact hf2
  have h2 : request_resource (request_resource D t r1) t r2 =
      ⟨D.num_resources, D.num_threads, (D.resource_status.set r1 (some t)).set r2 (some t),
        (D.thread_locks.set t (some r1)).set t (some r2), D.waiting⟩ := by
    rw [h1] at hst2 ⊢
    unfold request_resource
    rw [hst2]
  have hlock : (request_resource (request_resource D t r1) t r2).thread_locks.getD t none =
      some r2 := by
    rw [h2]
    simp only
    exact getD_set_self _ _ _ _ (by simpa using ht)
  have hstat : (request_resource (request_resource D t r1) t r2).resource_status.getD r1 none =
      some t := by
    rw [h2]
    simp only
    rw [getD_set_ne _ _ _ _ _ hne]
    exact getD_set_self _ _ _ _ hr1
  have hrel : release_resource (request_resource (request_resource D t r1) t r2) t r1 =
      request_resource (request_resource D t r1) t r2 := by
    unfold release_resource
    rw [hlock, if_neg (by simpa using Ne.symm hne)]
  exact ⟨hlock, hstat, hrel, by rw [hrel]; exact hstat⟩

/-- C10, witness: a fresh two-resource detector, thread 0 acquiring resource
0 then resource 1 and releasing resource 0. -/
theorem lock_slot_overwrite_loses_resource_witness :
    (request_resource (request_resource (detectorInit 2 1) 0 0) 0 1).thread_locks.getD 0 none =
      some 1 ∧
    (request_resource (request_resource (detectorInit 2 1) 0 0) 0 1).resource_status.getD 0 none =
      some 0 ∧
    release_resource (request_resource (request_resource (detectorInit 2 1) 0 0) 0 1) 0 0 =
      request_resource (request_resource (detectorInit 2 1) 0 0) 0 1 ∧
    (release_resource (request_resource (request_resource (detectorInit 2 1) 0 0) 0 1) 0
      0).resource_status.getD 0 none = some 0 :=
  lock_slot_overwrite_loses_resource (detectorInit 2 1) 0 0 1 (by decide) (by decide)
    (by decide) (by decide) (by decide)


/-- C5, amended.  `release_resources` performs no over-release validation:
for every release vector (including ones exceeding the actor's allocation) it
unconditionally adds to `available`, subtracts from `allocation[actor]`
(which may go negative), adds to `need[actor]`, and leaves every other
actor's rows unchanged; it never fails. -/
theorem release_resources_unvalidated (L : Ledger) (t : Nat) (rel : List Int)
    (hWF : L.WF) (ht : t < L.num_threads) :
    (∀ c < L.num_resources,
      idx (release_resources L t rel).available c = idx L.available c + idx rel c ∧
      idx (row (release_resources L t rel).allocation t) c
        = idx (row L.allocation t) c - idx rel c ∧
      idx (row (release_resources L t rel).need t) c = idx (row L.need t) c + idx rel c) ∧
    (∀ u, u ≠ t →
      row (release_resources L t rel).allocation u = row L.allocation u ∧
      row (release_resources L t rel).need u = row L.need u) := by
  obtain ⟨hav, hal, hnd, _, _⟩ := hWF
  constructor
  · intro c hc
    refine ⟨idx_addRow _ _ _ _ hc, ?_, ?_⟩
    · have hrow : row (release_resources L t rel).allocation t =
          subRow L.num_resources (row L.allocation t) rel :=
        row_set_self _ _ _ (by rw [hal]; exact ht)
      rw [hrow]
      exact idx_subRow _ _ _ _ hc
    · have hrow : row (release_resources L t rel).need t =
          addRow L.num_resources (row L.need t) rel :=
        row_set_self _ _ _ (by rw [hnd]; exact ht)
      rw [hrow]
      exact idx_addRow _ _ _ _ hc
  · intro u hu
    exact ⟨row_set_ne _ _ _ _ hu, row_set_ne _ _ _ _ hu⟩

/-- C5, amended claim's witness: on `ledgerOverRelease` the characterization
holds with the over-releasing vector `[1]`. -/
theorem release_resources_unvalidated_witness :
    (∀ c < ledgerOverRelease.num_resources,
      idx (release_resources ledgerOverRelease 0 [1]).available c
        = idx ledgerOverRelease.available c + idx [1] c ∧
      idx (row (release_resources ledgerOverRelease 0 [1]).allocation 0) c
        = idx (row ledgerOverRelease.allocation 0) c - idx [1] c ∧
      idx (row (release_resources ledgerOverRelease 0 [1]).need 0) c
        = idx (row ledgerOverRelease.need 0) c + idx [1] c) ∧
    (∀ u, u ≠ 0 →
      row (release_resources ledgerOverRelease 0 [1]).allocation u
        = row ledgerOverRelease.allocation u ∧
      row (release_resources ledgerOverRelease 0 [1]).need u
        = row ledgerOverRelease.need u) :=
  release_resources_unvalidated ledgerOverRelease 0 [1] (by decide) (by decide)

/-- C7, counterexample.  On the unsafe ledger `ledgerUnsafeZero` even the
all-zero request is denied: the tentative no-op allocation fails the safety
check, so `request_resources` returns `False` rather than granting. -/
theorem zero_request_denied_when_unsafe :
    (request_resources ledgerUnsafeZero 0
      (List.replicate ledgerUnsafeZero.num_resources 0)).1 = false := by decide

/-- A failed or no-op tentative grant of the zero vector leaves the ledger
literally unchanged. -/
theorem tentativeGrant_zero (L : Ledger) (t : Nat) (hWF : L.WF) (ht : t < L.num_threads) :
    tentativeGrant L t (List.replicate L.num_resources 0) = L := by
  obtain ⟨hav, hal, hnd, halr, hndr⟩ := hWF
  have h1 : subRow L.num_resources L.available (List.replicate L.num_resources 0) =
      L.available := subRow_zero _ _ hav _
  have h2 : addRow L.num_resources (row L.allocation t) (List.replicate L.num_resources 0) =
      row L.allocation t := by
    apply addRow_zero
    apply halr
    exact getD_mem_of_lt _ _ _ (by rw [hal]; exact ht)
  have h3 : subRow L.num_resources (row L.need t) (List.replicate L.num_resources 0) =
      row L.need t := by
    apply subRow_zero
    apply hndr
    exact getD_mem_of_lt _ _ _ (by rw [hnd]; exact ht)
  unfold tentativeGrant
  rw [h1, h2, h3]
  unfold row
  rw [set_getD_self, set_getD_self]

/-- C7, amended.  A zero-vector request never changes the ledger, and (when
the actor's need row and `available` are nonnegative, as on every state
reached from a legal start) it is granted exactly when the current state
passes `is_safe`: in an unsafe state even the zero request is denied. -/
theorem zero_request_noop_iff_safe (L : Ledger) (t : Nat)
    (hWF : L.WF) (ht : t < L.num_threads)
    (hneed : ∀ c < L.num_resources, 0 ≤ idx (row L.need t) c)
    (havail : ∀ c < L.num_resources, 0 ≤ idx L.available c) :
    request_resources L t (List.replicate L.num_resources 0) = ((is_safe L).1, L) := by
  have hz : ∀ i, idx (List.replicate L.num_resources 0) i = 0 := idx_replicate_zero _
  have hc1 : ((List.range L.num_resources).any fun i =>
      decide (idx (row L.need t) i < idx (List.replicate L.num_resources 0) i)) = false := by
    rw [List.any_eq_false]
    intro i hi
    simp only [hz, decide_eq_true_eq]
    exact not_lt.mpr (hneed i (List.mem_range.mp hi))
  have hc2 : ((List.range L.num_resources).any fun i =>
      decide (idx L.available i < idx (List.replicate L.num_resources 0) i)) = false := by
    rw [List.any_eq_false]
    intro i hi
    simp only [hz, decide_eq_true_eq]
    exact not_lt.mpr (havail i (List.mem_range.mp hi))
  have hgr : tentativeGrant L t (List.replicate L.num_resources 0) = L :=
    tentativeGrant_zero L t hWF ht
  unfold request_resources
  rw [hc1, hc2]
  simp only [Bool.false_eq_true, if_false, hgr]
  by_cases hs : (is_safe L).1
  · rw [if_pos hs, hs]
  · rw [if_neg hs]
    have : ({ L with available := L.available } : Ledger) = L := by
      cases L
      rfl
    rw [this]
    cases hsv : (is_safe L).1
    · rfl
    · exact absurd hsv hs

/-- C7, witness: on the safe one-actor ledger `ledgerTiny` the zero request
is granted and the ledger is returned unchanged. -/
theorem zero_request_noop_iff_safe_witness :
    request_resources ledgerTiny 0 (List.replicate ledgerTiny.num_resources 0)
      = ((is_safe ledgerTiny).1, ledgerTiny) ∧ (is_safe ledgerTiny).1 = true :=
  ⟨zero_request_noop_iff_safe ledgerTiny 0 (by decide) (by decide) (by decide) (by decide),
    by decide⟩

/-- A granted request commits exactly the tentative allocation. -/
theorem request_granted_eq (L : Ledger) (t : Nat) (req : List Int)
    (h : (request_resources L t req).1 = true) :
    (request_resources L t req).2 = tentativeGrant L t req := by
  unfold request_resources at h ⊢
  by_cases h1 : ((List.range L.num_resources).any fun i =>
      decide (idx (row L.need t) i < idx req i)) = true
  · rw [if_pos h1] at h
    exact absurd h (by simp)
  · rw [if_neg h1] at h ⊢
    by_cases h2 : ((List.range L.num_resources).any fun i =>
        decide (idx L.available i < idx req i)) = true
    · rw [if_pos h2] at h
      exact absurd h (by simp)
    · rw [if_neg h2] at h ⊢
      by_cases h3 : (is_safe (tentativeGrant L t req)).1 = true
      · rw [if_pos h3]
      · rw [if_neg h3] at h
        exact absurd h (by simp)

/-- C9.  Releasing exactly the vector just granted undoes the grant: every
field of the ledger (`available`, `allocation`, `need`, the size constants)
returns to its pre-request value. -/
theorem release_after_grant_restores (L : Ledger) (t : Nat) (req : List Int)
    (hWF : L.WF) (ht : t < L.num_threads)
    (hgrant : (request_resources L t req).1 = true) :
    release_resources (request_resources L t req).2 t req = L := by
  obtain ⟨hav, hal, hnd, halr, hndr⟩ := hWF
  rw [request_granted_eq L t req hgrant]
  have hrowlen : (row L.allocation t).length = L.num_resources :=
    halr _ (getD_mem_of_lt _ _ _ (by rw [hal]; exact ht))
  have hrowlen2 : (row L.need t).length = L.num_resources :=
    hndr _ (getD_mem_of_lt _ _ _ (by rw [hnd]; exact ht))
  unfold release_resources tentativeGrant
  simp only
  have e1 : addRow L.num_resources (subRow L.num_resources L.available req) req =
      L.available := addRow_subRow _ _ _ hav
  have e2 : row (L.allocation.set t (addRow L.num_resources (row L.allocation t) req)) t =
      addRow L.num_resources (row L.allocation t) req :=
    row_set_self _ _ _ (by rw [hal]; exact ht)
  have e3 : row (L.need.set t (subRow L.num_resources (row L.need t) req)) t =
      subRow L.num_resources (row L.need t) req :=
    row_set_self _ _ _ (by rw [hnd]; exact ht)
  rw [e1, e2, e3, subRow_addRow _ _ _ hrowlen, addRow_subRow _ _ _ hrowlen2]
  rw [List.set_set, List.set_set]
  unfold row
  rw [set_getD_self, set_getD_self]

/-- C9, witness: granting `[1]` to the only actor of `ledgerTiny` and then
releasing `[1]` restores the ledger exactly. -/
theorem release_after_grant_restores_witness :
    release_resources (request_resources ledgerTiny 0 [1]).2 0 [1] = ledgerTiny :=
  release_after_grant_restores ledgerTiny 0 [1] (by decide) (by decide) (by decide)

/-! ## Characterizing the `is_safe` scan -/

theorem getD_replicate {α : Type} (n i : Nat) (b : α) :
    (List.replicate n b).getD i b = b := by
  induction n generalizing i with
  | zero => simp
  | succ k ih =>
    cases i with
    | zero => rfl
    | succ j =>
      rw [List.replicate_succ, List.getD_cons_succ]
      exact ih j

theorem rowLe_iff (m : Nat) (nr w : List Int) :
    rowLe m nr w = true ↔ ∀ j < m, idx nr j ≤ idx w j := by
  unfold rowLe
  rw [List.all_eq_true]
  constructor
  · intro h j hj
    exact of_decide_eq_true (h j (List.mem_range.mpr hj))
  · intro h j hj
    exact decide_eq_true (h j (List.mem_range.mp hj))

theorem firstCand_none_spec (L : Ledger) (work : List Int) (finish : List Bool) :
    ∀ ks, firstCand L work finish ks = none →
      ∀ i ∈ ks, finish.getD i false = true ∨
        rowLe L.num_resources (row L.need i) work = false := by
  intro ks
  induction ks with
  | nil =>
    intro _ i hi
    simp at hi
  | cons a ks ih =>
    intro h i hi
    unfold firstCand at h
    by_cases hc : (!(finish.getD a false) && rowLe L.num_resources (row L.need a) work) = true
    · rw [if_pos hc] at h
      exact absurd h (by simp)
    · rw [if_neg hc] at h
      rcases List.mem_cons.mp hi with rfl | hmem
      · cases hfa : finish.getD i false
        · cases hra : rowLe L.num_resources (row L.need i) work
          · exact Or.inr rfl
          · exact absurd (by rw [hfa, hra]; rfl) hc
        · exact Or.inl rfl
      · exact ih h i hmem

theorem firstCand_some_spec (L : Ledger) (work : List Int) (finish : List Bool) :
    ∀ ks i, firstCand L work finish ks = some i →
      finish.getD i false = false ∧
      rowLe L.num_resources (row L.need i) work = true ∧
      ∃ ks₁ ks₂, ks = ks₁ ++ i :: ks₂ ∧
        ∀ j ∈ ks₁, finish.getD j false = true ∨
          rowLe L.num_resources (row L.need j) work = false := by
  intro ks
  induction ks with
  | nil =>
    intro i h
    simp [firstCand] at h
  | cons a ks ih =>
    intro i h
    unfold firstCand at h
    by_cases hc : (!(finish.getD a false) && rowLe L.num_resources (row L.need a) work) = true
    · rw [if_pos hc] at h
      obtain rfl : a = i := Option.some.inj h
      rw [Bool.and_eq_true] at hc
      have hfin : finish.getD a false = false := by
        cases hb : finish.getD a false
        · rfl
        · rw [hb] at hc
          exact absurd hc.1 (by simp)
      exact ⟨hfin, hc.2, [], ks, rfl, by simp⟩
    · rw [if_neg hc] at h
      obtain ⟨hf, hr, ks₁, ks₂, hks, hall⟩ := ih i h
      refine ⟨hf, hr, a :: ks₁, ks₂, by rw [hks]; rfl, ?_⟩
      intro j hj
      rcases List.mem_cons.mp hj with rfl | hj2
      · cases hfa : finish.getD j false
        · cases hra : rowLe L.num_resources (row L.need j) work
          · exact Or.inr rfl
          · exact absurd (by rw [hfa, hra]; rfl) hc
        · exact Or.inl rfl
      · exact hall j hj2

theorem range_split_lt_mem {n i : Nat} {ks₁ ks₂ : List Nat}
    (h : List.range n = ks₁ ++ i :: ks₂) :
    ∀ j < i, j ∈ ks₁ := by
  intro j hj
  have hpw : (ks₁ ++ i :: ks₂).Pairwise (· < ·) := h ▸ List.pairwise_lt_range n
  rw [List.pairwise_append] at hpw
  obtain ⟨_, hpw2, _⟩ := hpw
  rw [List.pairwise_cons] at hpw2
  have hin : i < n := by
    have hmem : i ∈ List.range n := by
      rw [h]
      exact List.mem_append_right _ (List.mem_cons_self i ks₂)
    exact List.mem_range.mp hmem
  have hjn : j ∈ List.range n := List.mem_range.mpr (lt_trans hj hin)
  rw [h] at hjn
  rcases List.mem_append.mp hjn with h1 | h2
  · exact h1
  · rcases List.mem_cons.mp h2 with rfl | h3
    · exact absurd hj (lt_irrefl _)
    · exact absurd (hpw2.1 j h3) (by omega)

theorem perm_range_of_nodup_bounded {seq : List Nat} {n : Nat}
    (hnd : seq.Nodup) (hbd : ∀ i ∈ seq, i < n) (hlen : n ≤ seq.length) :
    seq.Perm (List.range n) := by
  have hsub : seq ⊆ List.range n := fun a ha => List.mem_range.mpr (hbd a ha)
  exact (hnd.subperm hsub).perm_of_length_le (by simpa using hlen)

theorem isSafeLoop_spec (L : Ledger) :
    ∀ fuel work finish seq,
      L.num_threads ≤ fuel + seq.length →
      finish.length = L.num_threads →
      (∀ i, finish.getD i false = true ↔ i ∈ seq) →
      seq.Nodup →
      (∀ i ∈ seq, i < L.num_threads) →
      ScanRun L work finish seq (isSafeLoop L fuel work finish seq) ∧
      ((isSafeLoop L fuel work finish seq).1 = true →
        (isSafeLoop L fuel work finish seq).2.Perm (List.range L.num_threads)) := by
  intro fuel
  induction fuel with
  | zero =>
    intro work finish seq hfuel hlen hmem hnd hbd
    have hperm : seq.Perm (List.range L.num_threads) :=
      perm_range_of_nodup_bounded hnd hbd (by simpa using hfuel)
    refine ⟨?_, fun _ => hperm⟩
    apply ScanRun.allDone
    intro i hi
    rw [hmem i]
    exact hperm.mem_iff.mpr (List.mem_range.mpr hi)
  | succ fuel ih =>
    intro work finish seq hfuel hlen hmem hnd hbd
    by_cases hlt : seq.length < L.num_threads
    · cases hfc : firstCand L work finish (List.range L.num_threads) with
      | some i =>
        obtain ⟨hfin, hrow, ks₁, ks₂, hsplit, hall⟩ :=
          firstCand_some_spec L work finish _ i hfc
        have hi_n : i < L.num_threads := by
          have hmm : i ∈ List.range L.num_threads := by
            rw [hsplit]
            exact List.mem_append_right _ (List.mem_cons_self i ks₂)
          exact List.mem_range.mp hmm
        have hstep_eq : isSafeLoop L (fuel + 1) work finish seq =
            isSafeLoop L fuel (addRow L.num_resources work (row L.allocation i))
              (finish.set i true) (seq ++ [i]) := by
          simp only [isSafeLoop, if_pos hlt, hfc]
        have hnotmem : i ∉ seq := by
          intro hc
          rw [← hmem i] at hc
          rw [hfin] at hc
          exact absurd hc (by simp)
        have hlen2 : (finish.set i true).length = L.num_threads := by
          rw [List.length_set]
          exact hlen
        have hmem2 : ∀ j, (finish.set i true).getD j false = true ↔ j ∈ seq ++ [i] := by
          intro j
          by_cases hji : j = i
          · subst hji
            rw [getD_set_self _ _ _ _ (by rw [hlen]; exact hi_n)]
            simp
          · rw [getD_set_ne _ _ _ _ _ hji, hmem j]
            simp [hji]
        have hnd2 : (seq ++ [i]).Nodup := by
          rw [List.nodup_append]
          refine ⟨hnd, List.nodup_singleton i, ?_⟩
          intro a ha hb
          rw [List.mem_singleton] at hb
          subst hb
          exact hnotmem ha
        have hbd2 : ∀ j ∈ seq ++ [i], j < L.num_threads := by
          intro j hj
          rcases List.mem_append.mp hj with h1 | h2
          · exact hbd j h1
          · rw [List.mem_singleton] at h2
            subst h2
            exact hi_n
        have hfuel2 : L.num_threads ≤ fuel + (seq ++ [i]).length := by
          rw [List.length_append, List.length_singleton]
          omega
        obtain ⟨hsr, hpm⟩ := ih _ _ _ hfuel2 hlen2 hmem2 hnd2 hbd2
        have hmin : ∀ k < i, finish.getD k false = true ∨ ¬ NeedLe L k work := by
          intro k hk
          rcases hall k (range_split_lt_mem hsplit k hk) with h | h
          · exact Or.inl h
          · refine Or.inr ?_
            intro hne
            rw [(rowLe_iff _ _ _).mpr fun j hj => hne j hj] at h
            exact absurd h (by simp)
        constructor
        · rw [hstep_eq]
          exact ScanRun.step work finish seq _ i hi_n hfin
            (fun j hj => (rowLe_iff _ _ _).mp hrow j hj) hmin hsr
        · rw [hstep_eq]
          exact hpm
      | none =>
        have hres : isSafeLoop L (fuel + 1) work finish seq = (false, seq) := by
          simp only [isSafeLoop, if_pos hlt, hfc]
        rw [hres]
        constructor
        · apply ScanRun.stuck
          · by_contra hno
            push_neg at hno
            have hsub : List.range L.num_threads ⊆ seq := by
              intro a ha
              have han := List.mem_range.mp ha
              have := hno a han
              rw [← hmem a]
              cases hb : finish.getD a false
              · exact absurd hb (this)
              · rfl
            have hle : L.num_threads ≤ seq.length := by
              have hsp := (List.nodup_range L.num_threads).subperm hsub
              simpa using hsp.length_le
            omega
          · intro i hi hfi
            rcases firstCand_none_spec L work finish _ hfc i (List.mem_range.mpr hi) with h | h
            · rw [hfi] at h
              exact absurd h (by simp)
            · intro hne
              rw [(rowLe_iff _ _ _).mpr fun j hj => hne j hj] at h
              exact absurd h (by simp)
        · intro h
          exact absurd h (by simp)
    · have hres : isSafeLoop L (fuel + 1) work finish seq = (true, seq) := by
        simp only [isSafeLoop, if_neg hlt]
      have hperm : seq.Perm (List.range L.num_threads) :=
        perm_range_of_nodup_bounded hnd hbd (by omega)
      rw [hres]
      refine ⟨?_, fun _ => hperm⟩
      apply ScanRun.allDone
      intro i hi
      rw [hmem i]
      exact hperm.mem_iff.mpr (List.mem_range.mpr hi)

/-- C2.  `is_safe` runs exactly the claimed greedy scan: starting from
`work = available` with every actor unfinished and an empty sequence, the
result is produced by repeatedly taking the lowest-indexed unfinished actor
whose need row fits under `work` (rescanning from index 0 after each
success, absorbing the finisher's allocation into `work` and appending its
index), succeeding when every actor is finished and failing — with the
partial sequence built so far — when a complete scan finds no qualifying
unfinished actor; and on success the returned ordering contains every actor
index exactly once. -/
theorem is_safe_follows_greedy_scan (L : Ledger) :
    ScanRun L L.available (List.replicate L.num_threads false) [] (is_safe L) ∧
    ((is_safe L).1 = true → (is_safe L).2.Perm (List.range L.num_threads)) := by
  apply isSafeLoop_spec L L.num_threads L.available (List.replicate L.num_threads false) []
  · simp
  · simp
  · intro i
    rw [getD_replicate]
    simp
  · exact List.nodup_nil
  · intro i hi
    simp at hi

/-- C2, witness: the characterization instantiated on the safe one-actor
ledger, whose scan succeeds with the full ordering `[0]`. -/
theorem is_safe_follows_greedy_scan_witness :
    ScanRun ledgerTiny ledgerTiny.available
      (List.replicate ledgerTiny.num_threads false) [] (is_safe ledgerTiny) ∧
    (is_safe ledgerTiny).2.Perm (List.range ledgerTiny.num_threads) :=
  ⟨(is_safe_follows_greedy_scan ledgerTiny).1,
    (is_safe_follows_greedy_scan ledgerTiny).2 (by decide)⟩

/-! ## Basic facts about the detector's wait-for edges -/

theorem mem_holders {D : Detector} {t r b : Nat} :
    b ∈ holders D t r ↔
      b < D.thread_locks.length ∧ b ≠ t ∧ D.thread_locks.getD b none = some r := by
  unfold holders
  rw [List.mem_filter, List.mem_range]
  constructor
  · rintro ⟨hb, hp⟩
    rw [Bool.and_eq_true] at hp
    refine ⟨hb, ?_, ?_⟩
    · intro hbt
      rw [hbt] at hp
      simp at hp
    · exact eq_of_beq hp.2
  · rintro ⟨hb, hne, heq⟩
    refine ⟨hb, ?_⟩
    rw [Bool.and_eq_true]
    constructor
    · simp [hne]
    · exact beq_iff_eq.mpr heq

theorem nedge_ne {D : Detector} {t u : Nat} (h : NEdge D t u) : u ≠ t := by
  unfold NEdge neighbors at h
  rw [List.mem_flatMap] at h
  obtain ⟨r, _, hu⟩ := h
  exact (mem_holders.mp hu).2.1

theorem nedge_lt_locks {D : Detector} {t u : Nat} (h : NEdge D t u) :
    u < D.thread_locks.length := by
  unfold NEdge neighbors at h
  rw [List.mem_flatMap] at h
  obtain ⟨r, _, hu⟩ := h
  exact (mem_holders.mp hu).1

theorem nedge_src_lt_wait {D : Detector} {t u : Nat} (h : NEdge D t u) :
    t < D.waiting.length := by
  unfold NEdge neighbors at h
  rw [List.mem_flatMap] at h
  obtain ⟨r, hr, _⟩ := h
  by_contra hge
  rw [List.getD_eq_default _ _ (by omega)] at hr
  simp at hr

theorem edgeLocks_iff_nedge (D : Detector) (a b : Nat) :
    EdgeLocks D a b ↔ NEdge D a b := by
  unfold EdgeLocks NEdge neighbors
  rw [List.mem_flatMap]
  constructor
  · rintro ⟨hne, r, hr, heq⟩
    have hlt : b < D.thread_locks.length := by
      by_contra hge
      rw [List.getD_eq_default _ _ (by omega)] at heq
      exact absurd heq (by simp)
    exact ⟨r, hr, mem_holders.mpr ⟨hlt, Ne.symm hne, heq⟩⟩
  · rintro ⟨r, hr, hu⟩
    obtain ⟨_, hne, heq⟩ := mem_holders.mp hu
    exact ⟨Ne.symm hne, r, hr, heq⟩

/-! ## The unvisited-count measure -/

theorem mem_unvis {n : Nat} {vis : Nat → Bool} {v : Nat} :
    v ∈ unvis n vis ↔ v < n ∧ vis v = false := by
  unfold unvis
  rw [Finset.mem_filter, Finset.mem_range]

theorem unvis_card_le (n : Nat) (vis : Nat → Bool) : (unvis n vis).card ≤ n := by
  calc (unvis n vis).card ≤ (Finset.range n).card := Finset.card_le_card (Finset.filter_subset _ _)
  _ = n := Finset.card_range n

theorem unvis_subset_of_mono {n : Nat} {vis vis' : Nat → Bool}
    (h : ∀ v, vis v = true → vis' v = true) : unvis n vis' ⊆ unvis n vis := by
  intro v hv
  rw [mem_unvis] at hv ⊢
  refine ⟨hv.1, ?_⟩
  cases hb : vis v
  · rfl
  · rw [h v hb] at hv
    exact absurd hv.2 (by simp)

theorem unvis_update {n t : Nat} {vis : Nat → Bool} (h : vis t = false) (hn : t < n) :
    unvis n (fun v => if v = t then true else vis v) = (unvis n vis).erase t := by
  ext v
  rw [Finset.mem_erase, mem_unvis, mem_unvis]
  by_cases hv : v = t
  · subst hv
    simp
  · simp [hv]

theorem unvis_card_update {n t : Nat} {vis : Nat → Bool} (h : vis t = false) (hn : t < n) :
    (unvis n (fun v => if v = t then true else vis v)).card = (unvis n vis).card - 1 := by
  rw [unvis_update h hn]
  exact Finset.card_erase_of_mem (mem_unvis.mpr ⟨hn, h⟩)

theorem unvis_card_pos {n t : Nat} {vis : Nat → Bool} (h : vis t = false) (hn : t < n) :
    0 < (unvis n vis).card :=
  Finset.card_pos.mpr ⟨t, mem_unvis.mpr ⟨hn, h⟩⟩

/-! ## Black nodes stay closed under reachability -/

theorem black_reach {D : Detector} {vis stk : Nat → Bool} (hBC : BlackClosed D vis stk)
    {a b : Nat} (ha : vis a = true ∧ stk a = false)
    (h : Relation.ReflTransGen (NEdge D) a b) : vis b = true ∧ stk b = false := by
  induction h with
  | refl => exact ha
  | tail hpath hedge ih => exact hBC _ ih.1 ih.2 _ hedge

/-! ## Correctness of the `check_deadlock` traversal -/

theorem prod3_eq {b1 b2 : Bool} {v1 v2 s1 s2 : Nat → Bool}
    (h : ((b1, v1, s1) : Bool × (Nat → Bool) × (Nat → Bool)) = (b2, v2, s2)) :
    b1 = b2 ∧ v1 = v2 ∧ s1 = s2 := by
  injection h with h1 h2
  injection h2 with h2 h3
  exact ⟨h1, h2, h3⟩

theorem scanStep_false
    (rec : Nat → (Nat → Bool) → (Nat → Bool) → Bool × (Nat → Bool) × (Nat → Bool))
    (vis stk : Nat → Bool) (u : Nat) :
    scanStep rec (false, vis, stk) u =
      if vis u = false then
        match rec u vis stk with
        | (true, vis2, stk2) => (true, vis2, stk2)
        | (false, vis2, stk2) => if stk2 u = true then (true, vis2, stk2) else (false, vis2, stk2)
      else if stk u = true then (true, vis, stk) else (false, vis, stk) := rfl

theorem foldl_scanStep_true
    (rec : Nat → (Nat → Bool) → (Nat → Bool) → Bool × (Nat → Bool) × (Nat → Bool))
    (l : List Nat) (vis stk : Nat → Bool) :
    List.foldl (scanStep rec) (true, vis, stk) l = (true, vis, stk) := by
  induction l with
  | nil => rfl
  | cons u rest ih =>
    rw [List.foldl_cons]
    exact ih

theorem auxOK_zero (D : Detector) : AuxOK D 0 := by
  intro t vis stk b vis2 stk2 heq h1 h2 h3 _ _ _ _
  have := unvis_card_pos h1 h2
  omega

theorem scanOK_of_aux (D : Detector) (hL : D.thread_locks.length = D.num_threads)
    (fuel : Nat) (ha : AuxOK D fuel) : ScanOK D fuel := by
  intro t l
  induction l with
  | nil =>
    intro vis stk b vis2 stk2 heq hnb hst hcard hss hbc hba hgrey
    rw [List.foldl_nil] at heq
    obtain ⟨hb, hv, hs⟩ := prod3_eq heq
    subst hb
    subst hv
    subst hs
    refine ⟨fun v hv => hv, fun _ => ⟨fun v => rfl, hss, hbc, hba, by simp⟩, ?_⟩
    intro h
    exact absurd h (by simp)
  | cons u rest ih =>
    intro vis stk b vis2 stk2 heq hnb hst hcard hss hbc hba hgrey
    have hedge_u : NEdge D t u := hnb u (List.mem_cons_self u rest)
    have hu_lt : u < D.num_threads := hL ▸ nedge_lt_locks hedge_u
    rw [List.foldl_cons] at heq
    by_cases hvu : vis u = false
    · rcases haux : isDeadlockAux D fuel u vis stk with ⟨b1, visa, stka⟩
      have hgreys : ∀ g, stk g = true → Relation.TransGen (NEdge D) g u := by
        intro g hg
        rcases hgrey g hg with rfl | hgt
        · exact Relation.TransGen.single hedge_u
        · exact Relation.TransGen.tail hgt hedge_u
      obtain ⟨hmono, hvt, hfp, htp⟩ :=
        ha u vis stk b1 visa stka haux hvu hu_lt hcard hss hbc hba hgreys
      cases b1 with
      | true =>
        have hstep : scanStep (isDeadlockAux D fuel) (false, vis, stk) u = (true, visa, stka) := by
          rw [scanStep_false, if_pos hvu, haux]
        rw [hstep, foldl_scanStep_true] at heq
        obtain ⟨hb, hv, hs⟩ := prod3_eq heq
        subst hb
        subst hv
        subst hs
        refine ⟨hmono, ?_, fun _ => htp rfl⟩
        intro h
        exact absurd h (by simp)
      | false =>
        obtain ⟨hstk_eq, hss2, hbc2, hba2⟩ := hfp rfl
        have hsu : stk u = false := by
          cases hc : stk u
          · rfl
          · rw [hss u hc] at hvu
            exact absurd hvu (by simp)
        have hstka_u : stka u = false := by
          rw [hstk_eq u]
          exact hsu
        have hstep : scanStep (isDeadlockAux D fuel) (false, vis, stk) u =
            (false, visa, stka) := by
          rw [scanStep_false, if_pos hvu, haux]
          show (if stka u = true then ((true, visa, stka) : Bool × (Nat → Bool) × (Nat → Bool))
            else (false, visa, stka)) = (false, visa, stka)
          rw [if_neg (by rw [hstka_u]; simp)]
        rw [hstep] at heq
        have hrec := ih visa stka b vis2 stk2 heq
          (fun u' h => hnb u' (List.mem_cons_of_mem u h))
          (by rw [hstk_eq t]; exact hst)
          (le_trans (Finset.card_le_card (unvis_subset_of_mono hmono)) hcard)
          hss2 hbc2 hba2
          (fun g hg => hgrey g (by rw [← hstk_eq g]; exact hg))
        obtain ⟨imono, ifalse, itrue⟩ := hrec
        refine ⟨fun v hv => imono v (hmono v hv), ?_, itrue⟩
        intro hbf
        obtain ⟨istk, iss, ibc, iba, iproc⟩ := ifalse hbf
        refine ⟨fun v => by rw [istk v, hstk_eq v], iss, ibc, iba, ?_⟩
        intro u' hu'
        rcases List.mem_cons.mp hu' with rfl | hmem
        · exact ⟨imono u' hvt, by rw [istk u']; exact hstka_u⟩
        · exact iproc u' hmem
    · have hvu' : vis u = true := by
        cases hc : vis u
        · exact absurd hc hvu
        · rfl
      by_cases hsu : stk u = true
      · have hstep : scanStep (isDeadlockAux D fuel) (false, vis, stk) u = (true, vis, stk) := by
          rw [scanStep_false, if_neg hvu, if_pos hsu]
        rw [hstep, foldl_scanStep_true] at heq
        obtain ⟨hb, hv, hs⟩ := prod3_eq heq
        subst hb
        subst hv
        subst hs
        refine ⟨fun v hv => hv, ?_, ?_⟩
        · intro h
          exact absurd h (by simp)
        · intro _
          rcases hgrey u hsu with rfl | hgt
          · exact absurd rfl (nedge_ne hedge_u)
          · exact ⟨t, Relation.TransGen.head hedge_u hgt⟩
      · have hsu' : stk u = false := by
          cases hc : stk u
          · rfl
          · exact absurd hc hsu
        have hstep : scanStep (isDeadlockAux D fuel) (false, vis, stk) u = (false, vis, stk) := by
          rw [scanStep_false, if_neg hvu, if_neg hsu]
        rw [hstep] at heq
        have hrec := ih vis stk b vis2 stk2 heq
          (fun u' h => hnb u' (List.mem_cons_of_mem u h)) hst hcard hss hbc hba hgrey
        obtain ⟨imono, ifalse, itrue⟩ := hrec
        refine ⟨imono, ?_, itrue⟩
        intro hbf
        obtain ⟨istk, iss, ibc, iba, iproc⟩ := ifalse hbf
        refine ⟨istk, iss, ibc, iba, ?_⟩
        intro u' hu'
        rcases List.mem_cons.mp hu' with rfl | hmem
        · exact ⟨imono u' hvu', by rw [istk u']; exact hsu'⟩
        · exact iproc u' hmem

theorem isDeadlockAux_succ (D : Detector) (fuel t : Nat) (vis stk : Nat → Bool) :
    isDeadlockAux D (fuel + 1) t vis stk =
      match List.foldl (scanStep (isDeadlockAux D fuel))
          (false, fun v => if v = t then true else vis v, fun v => if v = t then true else stk v)
          (neighbors D t) with
      | (true, vis2, stk2) => (true, vis2, stk2)
      | (false, vis2, stk2) => (false, vis2, fun v => if v = t then false else stk2 v) := rfl

theorem auxOK_succ (D : Detector) (fuel : Nat) (hs : ScanOK D fuel) :
    AuxOK D (fuel + 1) := by
  intro t vis stk b vis2 stk2 heq h1 h2 h3 hss hbc hba hgrey
  rcases hscan : List.foldl (scanStep (isDeadlockAux D fuel))
      (false, fun v => if v = t then true else vis v, fun v => if v = t then true else stk v)
      (neighbors D t) with ⟨b1, visa, stka⟩
  rw [isDeadlockAux_succ, hscan] at heq
  have hst1 : (fun v => if v = t then true else stk v) t = true := by simp
  have hstk_t : stk t = false := by
    cases hc : stk t
    · rfl
    · rw [hss t hc] at h1
      exact absurd h1 (by simp)
  have hcard1 : (unvis D.num_threads (fun v => if v = t then true else vis v)).card ≤ fuel := by
    rw [unvis_card_update h1 h2]
    have := unvis_card_pos h1 h2
    omega
  have hss1 : StackSub (fun v => if v = t then true else vis v)
      (fun v => if v = t then true else stk v) := by
    intro v hv
    by_cases hvt : v = t
    · simp [hvt]
    · simp only [if_neg hvt] at hv ⊢
      exact hss v hv
  have hbc1 : BlackClosed D (fun v => if v = t then true else vis v)
      (fun v => if v = t then true else stk v) := by
    intro v hv hsv u hu
    have hvt : v ≠ t := by
      intro he
      rw [he] at hsv
      simp at hsv
    simp only [if_neg hvt] at hv hsv
    obtain ⟨hu1, hu2⟩ := hbc v hv hsv u hu
    have hut : u ≠ t := by
      intro he
      rw [he] at hu1
      rw [hu1] at h1
      exact absurd h1 (by simp)
    simp only [if_neg hut]
    exact ⟨hu1, hu2⟩
  have hba1 : BlackAcyclic D (fun v => if v = t then true else vis v)
      (fun v => if v = t then true else stk v) := by
    intro v hv hsv
    have hvt : v ≠ t := by
      intro he
      rw [he] at hsv
      simp at hsv
    simp only [if_neg hvt] at hv hsv
    exact hba v hv hsv
  have hgrey1 : ∀ g, (fun v => if v = t then true else stk v) g = true →
      g = t ∨ Relation.TransGen (NEdge D) g t := by
    intro g hg
    by_cases hgt : g = t
    · exact Or.inl hgt
    · simp only [if_neg hgt] at hg
      exact Or.inr (hgrey g hg)
  obtain ⟨smono, sfalse, strue⟩ := hs t (neighbors D t) _ _ b1 visa stka hscan
    (fun u hu => hu) hst1 hcard1 hss1 hbc1 hba1 hgrey1
  have hmono : ∀ v, vis v = true → visa v = true := by
    intro v hv
    apply smono
    by_cases hvt : v = t
    · simp [hvt]
    · simp only [if_neg hvt]
      exact hv
  have hvat : visa t = true := smono t (by simp)
  cases b1 with
  | true =>
    replace heq : ((true, visa, stka) : Bool × (Nat → Bool) × (Nat → Bool)) = (b, vis2, stk2) :=
      heq
    obtain ⟨hb, hv, hsk⟩ := prod3_eq heq
    subst hb
    subst hv
    subst hsk
    refine ⟨hmono, hvat, ?_, fun _ => strue rfl⟩
    intro h
    exact absurd h (by simp)
  | false =>
    replace heq : ((false, visa, fun v => if v = t then false else stka v) :
        Bool × (Nat → Bool) × (Nat → Bool)) = (b, vis2, stk2) := heq
    obtain ⟨hb, hv, hsk⟩ := prod3_eq heq
    subst hb
    subst hv
    subst hsk
    obtain ⟨sstk, sss, sbc, sba, sproc⟩ := sfalse rfl
    have hstka_t : stka t = true := by
      rw [sstk t]
      simp
    refine ⟨hmono, hvat, ?_, ?_⟩
    · intro _
      refine ⟨?_, ?_, ?_, ?_⟩
      · intro v
        by_cases hvt : v = t
        · rw [hvt]
          simp [hstk_t]
        · simp only [if_neg hvt]
          rw [sstk v]
          simp only [if_neg hvt]
      · intro v hv
        by_cases hvt : v = t
        · rw [hvt] at hv
          simp at hv
        · simp only [if_neg hvt] at hv
          exact sss v hv
      · intro v hv hsv u hu
        by_cases hvt : v = t
        · rw [hvt] at hu
          obtain ⟨hpv, hps⟩ := sproc u hu
          have hut : u ≠ t := nedge_ne hu
          exact ⟨hpv, by simp only [if_neg hut]; exact hps⟩
        · simp only [if_neg hvt] at hsv
          rw [sstk v] at hsv
          simp only [if_neg hvt] at hsv
          obtain ⟨hu1, hu2⟩ := sbc v hv (by rw [sstk v]; simp only [if_neg hvt]; exact hsv) u hu
          have hut : u ≠ t := by
            intro he
            rw [he] at hu2
            rw [hstka_t] at hu2
            exact absurd hu2 (by simp)
          exact ⟨hu1, by simp only [if_neg hut]; exact hu2⟩
      · intro v hv hsv hcy
        by_cases hvt : v = t
        · rw [hvt] at hcy
          rw [Relation.TransGen.head'_iff] at hcy
          obtain ⟨u, hu, hpath⟩ := hcy
          have hub := sproc u hu
          have hbt := black_reach sbc hub hpath
          rw [hstka_t] at hbt
          exact absurd hbt.2 (by simp)
        · simp only [if_neg hvt] at hsv
          exact sba v hv hsv hcy
    · intro h
      exact absurd h (by simp)

theorem auxOK_all (D : Detector) (hL : D.thread_locks.length = D.num_threads) :
    ∀ fuel, AuxOK D fuel := by
  intro fuel
  induction fuel with
  | zero => exact auxOK_zero D
  | succ fuel ih => exact auxOK_succ D fuel (scanOK_of_aux D hL fuel ih)

theorem nedge_cycle_lt (D : Detector) {v : Nat}
    (h : Relation.TransGen (NEdge D) v v) : v < D.waiting.length := by
  rw [Relation.TransGen.head'_iff] at h
  obtain ⟨u, hu, _⟩ := h
  exact nedge_src_lt_wait hu

theorem checkLoop_spec (D : Detector) (hL : D.thread_locks.length = D.num_threads) :
    ∀ (ts : List Nat) (vis stk : Nat → Bool) b vis2 stk2,
      checkLoop D ts vis stk = (b, vis2, stk2) →
      (∀ t ∈ ts, t < D.num_threads) →
      (∀ v, stk v = false) →
      StackSub vis stk → BlackClosed D vis stk → BlackAcyclic D vis stk →
      (∀ v, vis v = true → vis2 v = true) ∧
      (b = false → (∀ v, stk2 v = false) ∧ BlackClosed D vis2 stk2 ∧ BlackAcyclic D vis2 stk2 ∧
        StackSub vis2 stk2 ∧ (∀ t ∈ ts, vis2 t = true)) ∧
      (b = true → ∃ v, Relation.TransGen (NEdge D) v v) := by
  intro ts
  induction ts with
  | nil =>
    intro vis stk b vis2 stk2 heq _ hstk hss hbc hba
    replace heq : ((false, vis, stk) : Bool × (Nat → Bool) × (Nat → Bool)) = (b, vis2, stk2) :=
      heq
    obtain ⟨hb, hv, hs⟩ := prod3_eq heq
    subst hb
    subst hv
    subst hs
    exact ⟨fun v hv => hv, fun _ => ⟨hstk, hbc, hba, hss, by simp⟩, fun h => absurd h (by simp)⟩
  | cons t ts ih =>
    intro vis stk b vis2 stk2 heq hts hstk hss hbc hba
    have hcl : checkLoop D (t :: ts) vis stk =
        (if vis t = false then
          match isDeadlockAux D D.num_threads t vis stk with
          | (true, visa, stka) => (true, visa, stka)
          | (false, visa, stka) => checkLoop D ts visa stka
        else checkLoop D ts vis stk) := rfl
    rw [hcl] at heq
    by_cases hvt : vis t = false
    · rw [if_pos hvt] at heq
      rcases haux : isDeadlockAux D D.num_threads t vis stk with ⟨b1, visa, stka⟩
      rw [haux] at heq
      have hgrey0 : ∀ g, stk g = true → Relation.TransGen (NEdge D) g t := by
        intro g hg
        rw [hstk g] at hg
        exact absurd hg (by simp)
      obtain ⟨hmono, hvat, hfp, htp⟩ := auxOK_all D hL D.num_threads t vis stk b1 visa stka haux
        hvt (hts t (List.mem_cons_self t ts)) (unvis_card_le _ _) hss hbc hba hgrey0
      cases b1 with
      | true =>
        replace heq : ((true, visa, stka) : Bool × (Nat → Bool) × (Nat → Bool)) =
            (b, vis2, stk2) := heq
        obtain ⟨hb, hv, hs⟩ := prod3_eq heq
        subst hb
        subst hv
        subst hs
        exact ⟨hmono, fun h => absurd h (by simp), fun _ => htp rfl⟩
      | false =>
        replace heq : checkLoop D ts visa stka = (b, vis2, stk2) := heq
        obtain ⟨hstk_eq, hss2, hbc2, hba2⟩ := hfp rfl
        have hstk2 : ∀ v, stka v = false := fun v => by rw [hstk_eq v]; exact hstk v
        have hrec := ih visa stka b vis2 stk2 heq (fun t' h => hts t' (List.mem_cons_of_mem t h))
          hstk2 hss2 hbc2 hba2
        obtain ⟨imono, ifalse, itrue⟩ := hrec
        refine ⟨fun v hv => imono v (hmono v hv), ?_, itrue⟩
        intro hbf
        obtain ⟨istk, ibc, iba, iss, iall⟩ := ifalse hbf
        refine ⟨istk, ibc, iba, iss, ?_⟩
        intro t' ht'
        rcases List.mem_cons.mp ht' with rfl | hmem
        · exact imono t' hvat
        · exact iall t' hmem
    · rw [if_neg hvt] at heq
      have hvt' : vis t = true := by
        cases hc : vis t
        · exact absurd hc hvt
        · rfl
      have hrec := ih vis stk b vis2 stk2 heq (fun t' h => hts t' (List.mem_cons_of_mem t h))
        hstk hss hbc hba
      obtain ⟨imono, ifalse, itrue⟩ := hrec
      refine ⟨imono, ?_, itrue⟩
      intro hbf
      obtain ⟨istk, ibc, iba, iss, iall⟩ := ifalse hbf
      refine ⟨istk, ibc, iba, iss, ?_⟩
      intro t' ht'
      rcases List.mem_cons.mp ht' with rfl | hmem
      · exact imono t' hvt'
      · exact iall t' hmem

theorem check_deadlock_iff_nedge_cycle (D : Detector) (hWF : D.WF) :
    check_deadlock D = true ↔ ∃ v, Relation.TransGen (NEdge D) v v := by
  obtain ⟨hR, hL, hW⟩ := hWF
  rcases hfull : checkDeadlockFull D with ⟨b, vis2, stk2⟩
  have heq : checkLoop D (List.range D.num_threads) (fun _ => false) (fun _ => false) =
      (b, vis2, stk2) := hfull
  have hcd : check_deadlock D = b := by
    unfold check_deadlock
    rw [hfull]
  obtain ⟨_, ifalse, itrue⟩ := checkLoop_spec D hL (List.range D.num_threads) _ _ b vis2 stk2
    heq (fun t ht => List.mem_range.mp ht) (fun v => rfl)
    (fun v hv => absurd hv (by simp)) (fun v hv => absurd hv (by simp))
    (fun v hv => absurd hv (by simp))
  constructor
  · intro h
    rw [hcd] at h
    exact itrue h
  · rintro ⟨v, hcy⟩
    rw [hcd]
    cases hb : b
    · obtain ⟨istk, ibc, iba, iss, iall⟩ := ifalse hb
      have hvn : v < D.num_threads := by
        have := nedge_cycle_lt D hcy
        omega
      exact absurd hcy (iba v (iall v (List.mem_range.mpr hvn)) (istk v))
    · rfl

theorem transGen_edgeLocks_iff (D : Detector) (v : Nat) :
    Relation.TransGen (EdgeLocks D) v v ↔ Relation.TransGen (NEdge D) v v :=
  ⟨fun h => h.mono fun a b hab => (edgeLocks_iff_nedge D a b).mp hab,
   fun h => h.mono fun a b hab => (edgeLocks_iff_nedge D a b).mpr hab⟩

/-- C4, counterexample.  In the reachable state `detectorDiverge` the wait-for
graph derived from the held map `resource_status` (the specification's edge
`A → B` iff some resource awaited by `A` is held by `B`) has the cycle
`0 → 1 → 0`, yet `check_deadlock` reports no deadlock: it looks up holders in
`thread_locks`, where thread 1's slot was overwritten, so the claimed
equivalence with the held-map graph fails. -/
theorem check_deadlock_misses_held_map_cycle :
    (∃ v, Relation.TransGen (EdgeHeld detectorDiverge) v v) ∧
    check_deadlock detectorDiverge = false := by
  constructor
  · have e01 : EdgeHeld detectorDiverge 0 1 := ⟨by decide, 0, by decide, by decide⟩
    have e10 : EdgeHeld detectorDiverge 1 0 := ⟨by decide, 2, by decide, by decide⟩
    exact ⟨0, Relation.TransGen.head e01 (Relation.TransGen.single e10)⟩
  · decide

/-- C4, amended.  `check_deadlock` returns `true` exactly when the wait-for
graph derived from `thread_locks` (edge `A → B` iff some resource in `A`'s
waiting set is recorded in `B`'s lock slot, `A ≠ B`) has a cycle — in
particular a visited thread that is no longer on the recursion stack is never
reported as a cycle; and on scenario B (thread 0 holds resource 0 and waits
for resource 1, thread 1 holds resource 1 and waits for resource 0, thread 2
idle) it returns `true` with the recursion-stack flags at the moment of
detection marking exactly threads 0 and 1. -/
theorem check_deadlock_iff_locks_cycle (D : Detector) (hWF : D.WF) :
    (check_deadlock D = true ↔ ∃ v, Relation.TransGen (EdgeLocks D) v v) ∧
    check_deadlock detectorB = true ∧
    (checkDeadlockFull detectorB).2.2 0 = true ∧
    (checkDeadlockFull detectorB).2.2 1 = true ∧
    (checkDeadlockFull detectorB).2.2 2 = false := by
  refine ⟨?_, by decide, by decide, by decide, by decide⟩
  rw [check_deadlock_iff_nedge_cycle D hWF]
  exact exists_congr fun v => (transGen_edgeLocks_iff D v).symm

/-- C4, witness: the equivalence applied to scenario B's detector. -/
theorem check_deadlock_iff_locks_cycle_witness :
    (check_deadlock detectorB = true ↔
      ∃ v, Relation.TransGen (EdgeLocks detectorB) v v) ∧
    check_deadlock detectorB = true ∧
    (checkDeadlockFull detectorB).2.2 0 = true ∧
    (checkDeadlockFull detectorB).2.2 1 = true ∧
    (checkDeadlockFull detectorB).2.2 2 = false :=
  check_deadlock_iff_locks_cycle detectorB (by decide)
